import Mathlib

/-!
# Verification of the erudita documentation pipeline

Shallow embedding of the core functions of the `erudita` repository
(package-key parsing, the llms.txt index parser, the cache store, the
index fetcher with retries and root-domain fallback, the npm origin
resolver, and the bounded async pool), together with proofs and
counterexamples for the specification's testable properties.

Strings are modelled by Lean `String` (a wrapper around `List Char`);
JavaScript string primitives (`indexOf`/`slice`, single-occurrence
`String.prototype.replace`, `trim`, `split`) are modelled by executable
functions on `List Char` defined below.
-/

/-- Split a character list at the first occurrence of character `c`:
returns `(before, after)` with the occurrence removed.  Models the JS
idiom `s.indexOf(c)` followed by `s.slice(0, i)` / `s.slice(i + 1)`;
returns `none` when `indexOf` would return `-1`. -/
def splitFirst (c : Char) : List Char → Option (List Char × List Char)
  | [] => none
  | x :: xs =>
    if x = c then some ([], xs)
    else (splitFirst c xs).map (fun p => (x :: p.1, p.2))

/-- Split a character list at the first occurrence of the (nonempty)
pattern `pat`: returns `(before, after)` with the occurrence removed.
Models `s.indexOf(pat)` / slicing for a multi-character pattern. -/
def splitOnceL (pat : List Char) : List Char → Option (List Char × List Char)
  | [] => if pat.isPrefixOf [] then some ([], []) else none
  | x :: xs =>
    if pat.isPrefixOf (x :: xs) then some ([], (x :: xs).drop pat.length)
    else (splitOnceL pat xs).map (fun p => (x :: p.1, p.2))

/-- JS `String.prototype.replace(pat, rep)` with a string pattern:
replaces only the first occurrence of `pat`, if any. -/
def replaceFirstL (l pat rep : List Char) : List Char :=
  match splitOnceL pat l with
  | some (a, b) => a ++ rep ++ b
  | none => l

/-- String wrapper for `replaceFirstL`. -/
def replaceFirst (s pat rep : String) : String :=
  ⟨replaceFirstL s.data pat.data rep.data⟩

/-! ## Recomposition lemmas for the splitting helpers -/

theorem splitFirst_eq_some {c : Char} {l a b : List Char}
    (h : splitFirst c l = some (a, b)) : l = a ++ c :: b ∧ c ∉ a := by
  induction l generalizing a b with
  | nil => simp [splitFirst] at h
  | cons x xs ih =>
    by_cases hx : x = c
    · simp [splitFirst, hx] at h
      obtain ⟨ha, hb⟩ := h
      subst ha; subst hb; subst hx
      simp
    · cases hxs : splitFirst c xs with
      | none => simp [splitFirst, hx, hxs] at h
      | some p =>
        obtain ⟨p1, p2⟩ := p
        simp only [splitFirst, if_neg hx, hxs, Option.map_some', Option.some.injEq,
          Prod.mk.injEq] at h
        obtain ⟨ha, hb⟩ := h
        obtain ⟨hl, hc⟩ := ih hxs
        subst hb
        constructor
        · rw [← ha]; simpa using hl
        · rw [← ha]
          intro hmem
          rcases List.mem_cons.mp hmem with h1 | h2
          · exact hx h1.symm
          · exact hc h2

theorem splitFirst_append_cons {c : Char} {a : List Char} (b : List Char)
    (h : c ∉ a) : splitFirst c (a ++ c :: b) = some (a, b) := by
  induction a with
  | nil => simp [splitFirst]
  | cons x xs ih =>
    have hx : x ≠ c := by rintro rfl; exact h (by simp)
    have hxs : c ∉ xs := fun hc => h (by simp [hc])
    simp [splitFirst, hx, ih hxs]

theorem splitFirst_eq_none {c : Char} {l : List Char}
    (h : c ∉ l) : splitFirst c l = none := by
  induction l with
  | nil => rfl
  | cons x xs ih =>
    have hx : x ≠ c := by rintro rfl; exact h (by simp)
    have hxs : c ∉ xs := fun hc => h (by simp [hc])
    simp [splitFirst, hx, ih hxs]

/-! ## Package keys (`src/lib/project.ts`)

`parsePackageKey` splits `"name@version"`, treating a leading `@` as a
scope: for a scoped key it looks for the first `/`, then for the first
`@` after that slash.  `buildPackageKey` renders back, treating a `null`
or empty version as absent (JS truthiness). -/

structure ParsedPackageKey where
  name : String
  version : Option String
  deriving DecidableEq, Repr

/-- Core of `parsePackageKey` on character lists.  Mirrors the source:
the scoped branch finds `slashIndex = key.indexOf('/')`, then
`atIndex = afterSlash.indexOf('@')`, and slices; the unscoped branch
splits at `key.indexOf('@')`. -/
def parsePackageKeyL (key : List Char) : List Char × Option (List Char) :=
  if key.head? = some '@' then
    match splitFirst '/' key with
    | some (beforeSlash, afterSlash) =>
      match splitFirst '@' afterSlash with
      | some (beforeAt, afterAt) => (beforeSlash ++ '/' :: beforeAt, some afterAt)
      | none => (key, none)
    | none => (key, none)
  else
    match splitFirst '@' key with
    | some (beforeAt, afterAt) => (beforeAt, some afterAt)
    | none => (key, none)

/-- `parsePackageKey` from `src/lib/project.ts`. -/
def parsePackageKey (key : String) : ParsedPackageKey :=
  match parsePackageKeyL key.data with
  | (n, v) => ⟨⟨n⟩, v.map (⟨·⟩)⟩

/-- Core of `buildPackageKey` on character lists:
`version ? name + "@" + version : name` (empty version is falsy). -/
def buildPackageKeyL (name : List Char) (version : Option (List Char)) : List Char :=
  match version with
  | some v => if v = [] then name else name ++ '@' :: v
  | none => name

/-- `buildPackageKey` from `src/lib/project.ts`. -/
def buildPackageKey (name : String) (version : Option String) : String :=
  match version with
  | some v => if v = "" then name else ⟨name.data ++ '@' :: v.data⟩
  | none => name

/-- The claim's reading of the key grammar, modelled from the spec's
words: the version delimiter is the *last* `@` appearing after any scope
slash (for an unscoped key, the last `@` of the whole key). -/
def parsePackageKeySpecLastAt (key : String) : ParsedPackageKey :=
  let splitLast : List Char → Option (List Char × List Char) := fun l =>
    (splitFirst '@' l.reverse).map (fun p => (p.2.reverse, p.1.reverse))
  if key.data.head? = some '@' then
    match splitFirst '/' key.data with
    | some (beforeSlash, afterSlash) =>
      match splitLast afterSlash with
      | some (beforeAt, afterAt) => ⟨⟨beforeSlash ++ '/' :: beforeAt⟩, some ⟨afterAt⟩⟩
      | none => ⟨key, none⟩
    | none => ⟨key, none⟩
  else
    match splitLast key.data with
    | some (beforeAt, afterAt) => ⟨⟨beforeAt⟩, some ⟨afterAt⟩⟩
    | none => ⟨key, none⟩

theorem getLast?_append_singleton (l : List Char) (c : Char) :
    (l ++ [c]).getLast? = some c :=
  List.getLast?_concat _

theorem buildL_parseL (k : List Char) (h : k.getLast? ≠ some '@') :
    buildPackageKeyL (parsePackageKeyL k).1 (parsePackageKeyL k).2 = k := by
  by_cases hh : k.head? = some '@'
  · cases e1 : splitFirst '/' k with
    | none =>
      have hg : parsePackageKeyL k = (k, none) := by simp [parsePackageKeyL, hh, e1]
      rw [hg]; rfl
    | some p1 =>
      obtain ⟨a, b⟩ := p1
      cases e2 : splitFirst '@' b with
      | none =>
        have hg : parsePackageKeyL k = (k, none) := by simp [parsePackageKeyL, hh, e1, e2]
        rw [hg]; rfl
      | some p2 =>
        obtain ⟨nn, vv⟩ := p2
        obtain ⟨hk, -⟩ := splitFirst_eq_some e1
        obtain ⟨hb, -⟩ := splitFirst_eq_some e2
        have hvv : vv ≠ [] := by
          rintro rfl
          apply h
          rw [hk, hb]
          rw [show a ++ '/' :: (nn ++ ['@']) = (a ++ '/' :: nn) ++ ['@'] by simp]
          exact getLast?_append_singleton _ _
        have hg : parsePackageKeyL k = (a ++ '/' :: nn, some vv) := by
          simp [parsePackageKeyL, hh, e1, e2]
        rw [hg]
        simp only [buildPackageKeyL, if_neg hvv]
        rw [hk, hb]
        simp
  · cases e : splitFirst '@' k with
    | none =>
      have hg : parsePackageKeyL k = (k, none) := by simp [parsePackageKeyL, hh, e]
      rw [hg]; rfl
    | some p =>
      obtain ⟨nn, vv⟩ := p
      obtain ⟨hk, -⟩ := splitFirst_eq_some e
      have hvv : vv ≠ [] := by
        rintro rfl
        apply h
        rw [hk]
        exact getLast?_append_singleton _ _
      have hg : parsePackageKeyL k = (nn, some vv) := by
        simp [parsePackageKeyL, hh, e]
      rw [hg]
      simp only [buildPackageKeyL, if_neg hvv]
      rw [hk]

theorem buildPackageKey_mk (n : List Char) (v : Option (List Char)) :
    buildPackageKey ⟨n⟩ (v.map (⟨·⟩)) = ⟨buildPackageKeyL n v⟩ := by
  cases v with
  | none => rfl
  | some v =>
    simp only [Option.map_some', buildPackageKey, buildPackageKeyL]
    by_cases hv : v = []
    · subst hv; rfl
    · have hne : (⟨v⟩ : String) ≠ "" := fun hc => hv (congrArg String.data hc)
      rw [if_neg hne, if_neg hv]

/-- C10: for every package key string `k` that does not end in `'@'`,
`buildPackageKey` applied to the name/version produced by
`parsePackageKey k` returns `k` exactly (parse/build round-trip). -/
theorem parse_build_roundTrip (k : String) (h : k.data.getLast? ≠ some '@') :
    buildPackageKey (parsePackageKey k).name (parsePackageKey k).version = k := by
  obtain ⟨kd⟩ := k
  have e : parsePackageKey ⟨kd⟩ =
      ⟨⟨(parsePackageKeyL kd).1⟩, (parsePackageKeyL kd).2.map (⟨·⟩)⟩ := by
    unfold parsePackageKey
    rfl
  rw [e]
  show buildPackageKey ⟨(parsePackageKeyL kd).1⟩ ((parsePackageKeyL kd).2.map (⟨·⟩)) = ⟨kd⟩
  rw [buildPackageKey_mk]
  exact congrArg String.mk (buildL_parseL kd h)

/-- C10 witness: the round-trip at the scoped, versioned key
`"@vue/test-utils@2.0.0"`, whose version itself is recoverable. -/
theorem parse_build_roundTrip_witness :
    ("@vue/test-utils@2.0.0" : String).data.getLast? ≠ some '@' ∧
    buildPackageKey (parsePackageKey "@vue/test-utils@2.0.0").name
      (parsePackageKey "@vue/test-utils@2.0.0").version = "@vue/test-utils@2.0.0" :=
  ⟨by decide, parse_build_roundTrip "@vue/test-utils@2.0.0" (by decide)⟩

/-- C5 counterexample: on `"@s/a@b@c"` the code splits at the *first*
`'@'` after the scope slash (name `"@s/a"`, version `"b@c"`), while the
claim's last-`'@'` rule would give name `"@s/a@b"`, version `"c"`. -/
theorem parsePackageKey_cex :
    parsePackageKey "@s/a@b@c" = ⟨"@s/a", some "b@c"⟩ ∧
    parsePackageKeySpecLastAt "@s/a@b@c" = ⟨"@s/a@b", some "c"⟩ ∧
    parsePackageKey "@s/a@b@c" ≠ parsePackageKeySpecLastAt "@s/a@b@c" := by
  refine ⟨by decide, by decide, by decide⟩

/-- C5 (amended): `parsePackageKey` splits name from version at the
*first* `'@'` appearing after the scope slash (scoped keys), and at the
first `'@'` of the key (unscoped keys); the scope-separating `'/'` is
never confused with the version-separating `'@'`, and the version may
itself contain `'@'`. -/
theorem parsePackageKey_firstAtAfterSlash (s n v : List Char)
    (hs : '/' ∉ s) (hn : '@' ∉ n) :
    parsePackageKey ⟨'@' :: (s ++ '/' :: (n ++ '@' :: v))⟩ =
      ⟨⟨'@' :: (s ++ '/' :: n)⟩, some ⟨v⟩⟩ ∧
    (∀ m w : List Char, m ≠ [] → m.head? ≠ some '@' →
      '@' ∉ m → parsePackageKey ⟨m ++ '@' :: w⟩ = ⟨⟨m⟩, some ⟨w⟩⟩) := by
  constructor
  · have h1 : '/' ∉ ('@' :: s) := by
      intro hm
      rcases List.mem_cons.mp hm with h' | h'
      · exact absurd h' (by decide)
      · exact hs h'
    have h2 : splitFirst '/' (('@' :: s) ++ '/' :: (n ++ '@' :: v)) =
        some ('@' :: s, n ++ '@' :: v) := splitFirst_append_cons _ h1
    have h3 : splitFirst '@' (n ++ '@' :: v) = some (n, v) :=
      splitFirst_append_cons _ hn
    unfold parsePackageKey
    have h2' : splitFirst '/' ('@' :: (s ++ '/' :: (n ++ '@' :: v))) =
        some ('@' :: s, n ++ '@' :: v) := by simpa using h2
    simp [parsePackageKeyL, h2', h3]
  · intro m w hm0 hmh hm
    cases m with
    | nil => exact absurd rfl hm0
    | cons c cs =>
      have hc : c ≠ '@' := fun h => hmh (by simp [h])
      have h4 : splitFirst '@' ((c :: cs) ++ '@' :: w) = some (c :: cs, w) :=
        splitFirst_append_cons _ hm
      have h4' : splitFirst '@' (c :: (cs ++ '@' :: w)) = some (c :: cs, w) := by
        simpa using h4
      unfold parsePackageKey
      simp [parsePackageKeyL, hc, h4']

/-- C5 witness: the amended rule at the scoped key `"@s/a@b@c"` and the
unscoped key `"pinia@2.0.0"`. -/
theorem parsePackageKey_firstAtAfterSlash_witness :
    ('/' ∉ "s".data) ∧ ('@' ∉ "a".data) ∧
    parsePackageKey ⟨'@' :: ("s".data ++ '/' :: ("a".data ++ '@' :: "b@c".data))⟩ =
      ⟨⟨'@' :: ("s".data ++ '/' :: "a".data)⟩, some ⟨"b@c".data⟩⟩ ∧
    parsePackageKey ⟨"pinia".data ++ '@' :: "2.0.0".data⟩ =
      ⟨⟨"pinia".data⟩, some ⟨"2.0.0".data⟩⟩ :=
  ⟨by decide, by decide,
    (parsePackageKey_firstAtAfterSlash "s".data "a".data "b@c".data
      (by decide) (by decide)).1,
    (parsePackageKey_firstAtAfterSlash "s".data "a".data "b@c".data
      (by decide) (by decide)).2 "pinia".data "2.0.0".data
      (by decide) (by decide) (by decide)⟩

/-! ## The llms.txt document model (`src/types.ts`) -/

structure LlmsEntry where
  title : String
  url : String
  description : Option String
  deriving DecidableEq, Repr

structure LlmsDoc where
  title : String
  description : Option String
  entries : List LlmsEntry
  deriving DecidableEq, Repr

/-! ## Cache store (`src/lib/cache.ts`)

The filesystem under the cache root is modelled as an association list
from paths (lists of path segments, as produced by `join`) to file
contents; `writeFileSync` prepends and `readFileSync`/`existsSync` find
the most recent entry, so later writes shadow earlier ones. -/

abbrev FS := List (List String × String)

/-- `writeFileSync(path, content)` under the cache root. -/
def fsWrite (fs : FS) (p : List String) (c : String) : FS := (p, c) :: fs

/-- `existsSync` + `readFileSync`: the most recently written content at
`p`, if any. -/
def fsRead (fs : FS) (p : List String) : Option String :=
  (fs.find? (fun e => decide (e.1 = p))).map (·.2)

theorem fsRead_write_self (fs : FS) (p : List String) (c : String) :
    fsRead (fsWrite fs p c) p = some c := by
  simp [fsRead, fsWrite]

theorem fsRead_write_other (fs : FS) (p q : List String) (c : String)
    (h : q ≠ p) : fsRead (fsWrite fs p c) q = fsRead fs q := by
  simp [fsRead, fsWrite, List.find?_cons, Ne.symm h]

/-- `filename.replace(/[/\\]/g, '_')` from `cachePackage` /
`getCachedDocFile`: every path separator becomes `'_'`. -/
def sanitizeFilename (f : String) : String :=
  ⟨f.data.map (fun c => if c = '/' ∨ c = '\\' then '_' else c)⟩

/-- `packageKey.replace('/', '__')` from `getPackageCacheDir`: only the
first `'/'` is replaced. -/
def safeDirName (key : String) : String := replaceFirst key "/" "__"

/-- The package directory path under the cache root, from
`getPackageCacheDir`. -/
def getPackageCacheDir (key : String) : List String :=
  ["packages", safeDirName key]

/-- The key recovered by `listCached` from a directory name:
`dir.replace('__', '/')` (first occurrence only). -/
def listRecoverKey (dir : String) : String := replaceFirst dir "__" "/"

/-- Models `JSON.stringify` of the `CachedPackageMeta` object (an opaque
injective serialization; its exact shape is irrelevant here). -/
def metaJson (name sourceUrl : String) (fetchedAt : Nat) : String :=
  name ++ "|" ++ sourceUrl ++ "|" ++ toString fetchedAt

/-- `cachePackage` from `src/lib/cache.ts`: writes the raw index text,
each document under its sanitized filename, then the metadata file.
`docFiles` models the JS `Map` in insertion order (distinct keys). -/
def cachePackage (fs : FS) (packageName sourceUrl : String) (_doc : LlmsDoc)
    (rawLlmsTxt : String) (docFiles : List (String × String)) (now : Nat) : FS :=
  let packageDir := getPackageCacheDir packageName
  let fs1 := fsWrite fs (packageDir ++ ["llms.txt"]) rawLlmsTxt
  let fs2 := docFiles.foldl
    (fun acc fc => fsWrite acc (packageDir ++ ["docs", sanitizeFilename fc.1]) fc.2) fs1
  fsWrite fs2 (packageDir ++ ["meta.json"]) (metaJson packageName sourceUrl now)

/-- `getCachedLlmsTxt` from `src/lib/cache.ts`. -/
def getCachedLlmsTxt (fs : FS) (packageName : String) : Option String :=
  fsRead fs (getPackageCacheDir packageName ++ ["llms.txt"])

/-- `getCachedDocFile` from `src/lib/cache.ts`. -/
def getCachedDocFile (fs : FS) (packageName filename : String) : Option String :=
  fsRead fs (getPackageCacheDir packageName ++ ["docs", sanitizeFilename filename])

theorem fsRead_foldl_writes (items : List (String × String)) (fs : FS)
    (pathOf : String → List String) (q : List String)
    (h : ∀ x ∈ items, pathOf x.1 ≠ q) :
    fsRead (items.foldl (fun acc fc => fsWrite acc (pathOf fc.1) fc.2) fs) q =
      fsRead fs q := by
  induction items generalizing fs with
  | nil => rfl
  | cons g rest ih =>
    rw [List.foldl_cons, ih _ (fun x hx => h x (List.mem_cons_of_mem _ hx)),
      fsRead_write_other]
    exact fun hc => h g (List.mem_cons_self _ _) hc.symm

theorem fsRead_foldl_writes_mem (items : List (String × String)) (fs : FS)
    (pathOf : String → List String) (f c : String)
    (hmem : (f, c) ∈ items)
    (hinj : items.Pairwise (fun a b => pathOf a.1 ≠ pathOf b.1)) :
    fsRead (items.foldl (fun acc fc => fsWrite acc (pathOf fc.1) fc.2) fs)
      (pathOf f) = some c := by
  induction items generalizing fs with
  | nil => cases hmem
  | cons g rest ih =>
    rw [List.pairwise_cons] at hinj
    rcases List.mem_cons.mp hmem with heq | hrest
    · subst heq
      rw [List.foldl_cons,
        fsRead_foldl_writes _ _ _ _ (fun x hx => (hinj.1 x hx).symm)]
      exact fsRead_write_self _ _ _
    · rw [List.foldl_cons]
      exact ih _ hrest hinj.2

theorem append_ne_of_ne {dir a b : List String} (h : a ≠ b) :
    dir ++ a ≠ dir ++ b :=
  fun hc => h (List.append_cancel_left hc)

theorem docsPath_inj {dir : List String} {a b : String}
    (h : dir ++ ["docs", a] = dir ++ ["docs", b]) : a = b := by
  have h2 := List.append_cancel_left h
  simpa using h2

/-- C1 counterexample: with the document map
`{"a/b" ↦ "x", "a_b" ↦ "y"}` both filenames sanitize to `"a_b"`, the
second write shadows the first, and `getCachedDocFile` for `"a/b"` does
not return its own content `"x"`. -/
theorem cachePackage_roundTrip_cex :
    getCachedDocFile
      (cachePackage [] "p" "u" ⟨"", none, []⟩ "t" [("a/b", "x"), ("a_b", "y")] 0)
      "p" "a/b" = some "y" ∧
    getCachedDocFile
      (cachePackage [] "p" "u" ⟨"", none, []⟩ "t" [("a/b", "x"), ("a_b", "y")] 0)
      "p" "a/b" ≠ some "x" := by
  refine ⟨by decide, by decide⟩

/-- C1 (amended): after `cachePackage k u t d`, `getCachedLlmsTxt k`
returns exactly `t` — unconditionally, for every document map `d`; and
provided no two filenames of `d` collide after path-separator
sanitization, `getCachedDocFile k f` returns exactly `d[f]` for every
`f` in `d`. -/
theorem cachePackage_roundTrip (fs : FS) (k u t : String) (doc : LlmsDoc)
    (d : List (String × String)) (now : Nat) :
    getCachedLlmsTxt (cachePackage fs k u doc t d now) k = some t ∧
    (d.Pairwise (fun a b => sanitizeFilename a.1 ≠ sanitizeFilename b.1) →
      ∀ f c, (f, c) ∈ d →
        getCachedDocFile (cachePackage fs k u doc t d now) k f = some c) := by
  constructor
  · simp only [getCachedLlmsTxt, cachePackage]
    refine Eq.trans (fsRead_write_other _ _ _ _ (append_ne_of_ne (by simp))) ?_
    refine Eq.trans (fsRead_foldl_writes d _
      (fun f => getPackageCacheDir k ++ ["docs", sanitizeFilename f]) _
      (fun x hx => append_ne_of_ne (by simp))) ?_
    exact fsRead_write_self _ _ _
  · intro hinj f c hmem
    simp only [getCachedDocFile, cachePackage]
    refine Eq.trans (fsRead_write_other _ _ _ _ (append_ne_of_ne (by simp))) ?_
    exact fsRead_foldl_writes_mem d _
      (fun f => getPackageCacheDir k ++ ["docs", sanitizeFilename f]) f c hmem
      (hinj.imp (fun hab hc => hab (docsPath_inj hc)))

/-- C1 witness: the unconditional llms.txt round-trip even at the
*colliding* document map of the counterexample, and both conjuncts at a
concrete collision-free document map. -/
theorem cachePackage_roundTrip_witness :
    getCachedLlmsTxt
      (cachePackage [] "p" "u" ⟨"", none, []⟩ "t" [("a/b", "x"), ("a_b", "y")] 0)
      "p" = some "t" ∧
    ([("a.md", "x"), ("b.md", "y")] : List (String × String)).Pairwise
      (fun a b => sanitizeFilename a.1 ≠ sanitizeFilename b.1) ∧
    getCachedLlmsTxt
      (cachePackage [] "p" "u" ⟨"", none, []⟩ "t" [("a.md", "x"), ("b.md", "y")] 0)
      "p" = some "t" ∧
    getCachedDocFile
      (cachePackage [] "p" "u" ⟨"", none, []⟩ "t" [("a.md", "x"), ("b.md", "y")] 0)
      "p" "a.md" = some "x" :=
  ⟨(cachePackage_roundTrip [] "p" "u" "t" ⟨"", none, []⟩
      [("a/b", "x"), ("a_b", "y")] 0).1,
   by decide,
    (cachePackage_roundTrip [] "p" "u" "t" ⟨"", none, []⟩
      [("a.md", "x"), ("b.md", "y")] 0).1,
    (cachePackage_roundTrip [] "p" "u" "t" ⟨"", none, []⟩
      [("a.md", "x"), ("b.md", "y")] 0).2 (by decide) "a.md" "x" (by decide)⟩

/-- C4: the cache directory name derivation is *not* reversible: the
unscoped key `"a__b"` and the scoped key `"a/b"` map to the same
directory name, and `listCached`'s recovery attributes that directory to
`"a/b"`, not to `"a__b"`. -/
theorem cacheDirName_misattribution :
    safeDirName "a__b" = safeDirName "a/b" ∧
    listRecoverKey (safeDirName "a__b") = "a/b" ∧
    listRecoverKey (safeDirName "a__b") ≠ "a__b" := by
  refine ⟨by decide, by decide, by decide⟩

/-! ## llms.txt index parser (`src/lib/llms-parser.ts`)

The parser is line-oriented: JS `content.split('\n')`, `trim`,
`startsWith` and `slice` are modelled by the structurally recursive
list functions below, and the two link regexes by explicit matchers on
character lists. -/

/-- The JS `\s` character class, restricted to the whitespace that can
occur inside a single line (ASCII model). -/
def isWsChar (c : Char) : Bool := c = ' ' || c = '\t' || c = '\r'

/-- JS `String.prototype.trim` (ASCII whitespace model): strip
whitespace from both ends. -/
def trimL (l : List Char) : List Char :=
  ((l.dropWhile Char.isWhitespace).reverse.dropWhile Char.isWhitespace).reverse

/-- JS `content.split('\n')`: cut the character list at every newline;
always returns at least one (possibly empty) line. -/
def splitLinesAux : List Char → List Char → List String
  | [], acc => [⟨acc.reverse⟩]
  | c :: cs, acc =>
    if c = '\n' then ⟨acc.reverse⟩ :: splitLinesAux cs []
    else splitLinesAux cs (c :: acc)

def splitLines (s : String) : List String := splitLinesAux s.data []

/-- The bulleted-link regex of the parser:
a bullet `-`/`*`, optional spaces, `[label](url)`, optionally followed
by `: description` (the description group must be nonempty).  Returns
`(label, url, rawDescription)`. -/
def matchBulletLink (l : List Char) :
    Option (List Char × List Char × Option (List Char)) :=
  match l with
  | [] => none
  | b :: rest =>
    if b = '-' ∨ b = '*' then
      match rest.dropWhile isWsChar with
      | '[' :: r1 =>
        match splitFirst ']' r1 with
        | some (label, r2) =>
          if label = [] then none
          else
            match r2 with
            | '(' :: r3 =>
              match splitFirst ')' r3 with
              | some (url, r4) =>
                if url = [] then none
                else
                  match r4 with
                  | [] => some (label, url, none)
                  | ':' :: r5 =>
                    if r5 = [] then none else some (label, url, some r5)
                  | _ => none
              | none => none
            | _ => none
        | none => none
      | _ => none
    else none

/-- The plain-link regex of the parser: a line that is exactly
`[label](url)`. -/
def matchPlainLink (l : List Char) : Option (List Char × List Char) :=
  match l with
  | '[' :: r1 =>
    match splitFirst ']' r1 with
    | some (label, r2) =>
      if label = [] then none
      else
        match r2 with
        | '(' :: r3 =>
          match splitFirst ')' r3 with
          | some (url, r4) =>
            if url = [] ∨ r4 ≠ [] then none else some (label, url)
          | none => none
        | _ => none
    | none => none
  | _ => none

/-- The parser's mutable loop state: `title`, `description`,
`entries`, `currentSection`, `inBlockquote`, `blockquoteLines`. -/
structure ParseState where
  title : String
  description : Option String
  entries : List LlmsEntry
  currentSection : String
  inBlockquote : Bool
  blockquoteLines : List String
  deriving Repr

def initParseState : ParseState := ⟨"", none, [], "", false, []⟩

/-- The title-composition rule: `currentSection ? section - label : label`
(an empty section label is falsy). -/
def composeTitle (currentSection : String) (label : List Char) : String :=
  if currentSection = "" then ⟨label⟩ else currentSection ++ " - " ++ ⟨label⟩

/-- One iteration of the parser's `for (const line of lines)` loop. -/
def parseStep (st : ParseState) (line : String) : ParseState :=
  let trimmed := trimL line.data
  if "# ".data.isPrefixOf trimmed then
    { st with title := ⟨trimL (trimmed.drop 2)⟩ }
  else if ">".data.isPrefixOf trimmed then
    { st with inBlockquote := true,
              blockquoteLines := st.blockquoteLines ++ [⟨trimL (trimmed.drop 1)⟩] }
  else if st.inBlockquote ∧ trimmed = [] then
    { st with
      description :=
        (if st.blockquoteLines ≠ [] ∧
            (st.description = none ∨ st.description = some "") then
          some (String.intercalate " " st.blockquoteLines)
         else
          st.description),
      inBlockquote := false,
      blockquoteLines := [] }
  else if "## ".data.isPrefixOf trimmed then
    { st with currentSection := ⟨trimL (trimmed.drop 3)⟩ }
  else
    match matchBulletLink trimmed with
    | some (label, url, desc) =>
      { st with entries := st.entries ++
          [⟨composeTitle st.currentSection label, ⟨url⟩,
            desc.map (fun d => (⟨trimL d⟩ : String))⟩] }
    | none =>
      match matchPlainLink trimmed with
      | some (label, url) =>
        { st with entries := st.entries ++
            [⟨composeTitle st.currentSection label, ⟨url⟩, none⟩] }
      | none => st

/-- `parseLlmsTxt` from `src/lib/llms-parser.ts`: fold the loop over
the lines, then close a blockquote left open at end of input. -/
def parseLlmsTxt (content : String) : LlmsDoc :=
  let st := (splitLines content).foldl parseStep initParseState
  let description :=
    if st.inBlockquote ∧ st.blockquoteLines ≠ [] ∧
        (st.description = none ∨ st.description = some "") then
      some (String.intercalate " " st.blockquoteLines)
    else st.description
  ⟨st.title, description, st.entries⟩

/-- The title contributed by a single line, if any: the parser treats a
line as a title line when its trimmed form starts with `"# "`. -/
def titleOf? (line : String) : Option String :=
  if "# ".data.isPrefixOf (trimL line.data) then
    some ⟨trimL ((trimL line.data).drop 2)⟩
  else none

theorem parseStep_title (st : ParseState) (line : String) :
    (parseStep st line).title = (titleOf? line).getD st.title := by
  by_cases h : "# ".data.isPrefixOf (trimL line.data) = true
  · simp [parseStep, titleOf?, h]
  · simp only [parseStep, titleOf?, Bool.not_eq_true] at h ⊢
    rw [h]
    simp only [Bool.false_eq_true, if_false, Option.getD_none]
    repeat' split
    all_goals rfl

theorem foldl_parseStep_title (lines : List String) (st : ParseState) :
    (lines.foldl parseStep st).title =
      ((lines.filterMap titleOf?).getLast?).getD st.title := by
  induction lines generalizing st with
  | nil => rfl
  | cons l rest ih =>
    rw [List.foldl_cons, ih]
    cases hl : titleOf? l with
    | none => simp [List.filterMap_cons, hl, parseStep_title]
    | some t =>
      simp only [List.filterMap_cons, hl]
      cases hfm : rest.filterMap titleOf? with
      | nil => simp [hfm, parseStep_title, hl]
      | cons y ys =>
        cases hgl : (y :: ys).getLast? with
        | none => simp [List.getLast?_eq_none_iff] at hgl
        | some z => simp [hfm, hgl, parseStep_title, hl]

/-- C9 counterexample: with two title lines, `parseLlmsTxt` keeps the
*last* one — the claim's first-occurrence rule fails on `"# A\n# B"`. -/
theorem parseLlmsTxt_title_cex :
    (parseLlmsTxt "# A\n# B").title = "B" ∧
    (parseLlmsTxt "# A\n# B").title ≠ "A" := by
  refine ⟨by decide, by decide⟩

/-- C9 (amended): the document title is the text of the *last* line
whose trimmed form starts with `"# "` (last occurrence wins); with no
such line it is the empty string. -/
theorem parseLlmsTxt_title_lastWins (content : String) :
    (parseLlmsTxt content).title =
      (((splitLines content).filterMap titleOf?).getLast?).getD "" :=
  foldl_parseStep_title (splitLines content) initParseState

/-! ## Index fetcher (`src/lib/fetcher.ts` part of `src/lib/project.ts`)

Network effects are modelled by a *fetch oracle*
`fetch : String → Option String`, giving per candidate URL the response
body that `fetchWithRetry` ultimately yields (`none` models exhausted
retries or a non-retryable 4xx miss).  Base URLs are modelled by a
parsed `Url` structure mirroring what the WHATWG `URL` constructor
exposes of them (`protocol`, `host`, `pathname`). -/

/-- A parsed absolute URL: `scheme ++ "://" ++ host ++ path`, where
`path` is either empty or starts with `'/'`. -/
structure Url where
  scheme : String
  host : String
  path : String
  deriving DecidableEq, Repr

/-- The URL string this `Url` renders to. -/
def Url.render (u : Url) : String := u.scheme ++ "://" ++ u.host ++ u.path

/-- `getUrlPath` from the source: `new URL(url).pathname`.  The WHATWG
pathname of an http(s) URL with an empty path is `"/"`. -/
def getUrlPath (u : Url) : String := if u.path = "" then "/" else u.path

/-- `extractRootUrl` from the source:
`parsed.protocol + "//" + parsed.host`. -/
def extractRootUrl (u : Url) : String := u.scheme ++ "://" ++ u.host

/-- JS `content.includes(c)` for a single character. -/
def jsIncludesChar (s : String) (c : Char) : Bool := s.data.contains c

/-- The candidate URL built by `tryFetchLlmsTxt` for one path:
`baseUrl.endsWith('/') ? baseUrl.slice(0, -1) + path : baseUrl + path`. -/
def candidateUrl (baseUrl p : String) : String :=
  if baseUrl.data.getLast? = some '/' then ⟨baseUrl.data.dropLast ++ p.data⟩
  else ⟨baseUrl.data ++ p.data⟩

def LLMS_TXT_PATHS : List String := ["/llms.txt", "/llms-full.txt"]

/-- The `for (const path of LLMS_TXT_PATHS)` loop of `tryFetchLlmsTxt`:
accept the first response whose body contains `'#'`; also records the
list of URLs attempted, in order. -/
def tryFetchLoop (fetch : String → Option String) (baseUrl : String) :
    List String → Option (String × String) × List String
  | [] => (none, [])
  | p :: rest =>
    let url := candidateUrl baseUrl p
    match fetch url with
    | some content =>
      if jsIncludesChar content '#' then (some (content, url), [url])
      else
        match tryFetchLoop fetch baseUrl rest with
        | (r, log) => (r, url :: log)
    | none =>
      match tryFetchLoop fetch baseUrl rest with
      | (r, log) => (r, url :: log)

/-- `tryFetchLlmsTxt` from the source, instrumented with its attempt
log. -/
def tryFetchLlmsTxt (fetch : String → Option String) (baseUrl : String) :
    Option (String × String) × List String :=
  tryFetchLoop fetch baseUrl LLMS_TXT_PATHS

/-- The result of `fetchLlmsTxt`: content, the exact URL it was
retrieved from, and (on root-domain fallback success) the original path
segment (the source's optional `pathPrefix` field). -/
structure LlmsFetchResult where
  content : String
  url : String
  prefixPath : Option String
  deriving DecidableEq, Repr

/-- `fetchLlmsTxt` from the source, instrumented with its attempt log:
direct fetch first; on failure, if the base URL has a non-root path,
retry against the root domain and carry the path as the prefix. -/
def fetchLlmsTxt (fetch : String → Option String) (base : Url) :
    Option LlmsFetchResult × List String :=
  match tryFetchLlmsTxt fetch base.render with
  | (some (c, u), dlog) => (some ⟨c, u, none⟩, dlog)
  | (none, dlog) =>
    let urlPath := getUrlPath base
    if urlPath ≠ "" ∧ urlPath ≠ "/" then
      match tryFetchLlmsTxt fetch (extractRootUrl base) with
      | (some (c, u), rlog) => (some ⟨c, u, some urlPath⟩, dlog ++ rlog)
      | (none, rlog) => (none, dlog ++ rlog)
    else (none, dlog)

/-- The two direct candidate URLs, primary first. -/
def directCandidates (base : Url) : List String :=
  LLMS_TXT_PATHS.map (candidateUrl base.render)

/-- The two root-domain candidate URLs, primary first. -/
def rootCandidates (base : Url) : List String :=
  LLMS_TXT_PATHS.map (candidateUrl (extractRootUrl base))

theorem tryFetchLlmsTxt_log (fetch : String → Option String) (b : String) :
    ((tryFetchLlmsTxt fetch b).2 = [candidateUrl b "/llms.txt"] ∨
     (tryFetchLlmsTxt fetch b).2 =
       [candidateUrl b "/llms.txt", candidateUrl b "/llms-full.txt"]) ∧
    ((tryFetchLlmsTxt fetch b).1 = none →
     (tryFetchLlmsTxt fetch b).2 =
       [candidateUrl b "/llms.txt", candidateUrl b "/llms-full.txt"]) := by
  unfold tryFetchLlmsTxt LLMS_TXT_PATHS
  rcases h1 : fetch (candidateUrl b "/llms.txt") with _ | c1
  · rcases h2 : fetch (candidateUrl b "/llms-full.txt") with _ | c2
    · simp [tryFetchLoop, h1, h2]
    · by_cases hh2 : jsIncludesChar c2 '#' <;> simp [tryFetchLoop, h1, h2, hh2]
  · by_cases hh1 : jsIncludesChar c1 '#'
    · simp [tryFetchLoop, h1, hh1]
    · rcases h2 : fetch (candidateUrl b "/llms-full.txt") with _ | c2
      · simp [tryFetchLoop, h1, hh1, h2]
      · by_cases hh2 : jsIncludesChar c2 '#' <;> simp [tryFetchLoop, h1, hh1, h2, hh2]

/-- C3: the index fetcher attempts `/llms.txt` before `/llms-full.txt`
against the base URL; the root-domain candidates are attempted only
after both direct-path attempts have failed and only when the base URL
carries a non-root path; and on root-domain success the result carries
the original path segment as its prefix field. -/
theorem fetchLlmsTxt_attempt_order (fetch : String → Option String) (base : Url) :
    ((fetchLlmsTxt fetch base).2 = [candidateUrl base.render "/llms.txt"] ∨
     (fetchLlmsTxt fetch base).2 = directCandidates base ∨
     (fetchLlmsTxt fetch base).2 =
       directCandidates base ++ [candidateUrl (extractRootUrl base) "/llms.txt"] ∨
     (fetchLlmsTxt fetch base).2 = directCandidates base ++ rootCandidates base) ∧
    (2 < (fetchLlmsTxt fetch base).2.length →
      (tryFetchLlmsTxt fetch base.render).1 = none ∧ getUrlPath base ≠ "/") ∧
    (∀ r, (fetchLlmsTxt fetch base).1 = some r →
      (2 < (fetchLlmsTxt fetch base).2.length →
        r.prefixPath = some (getUrlPath base)) ∧
      ((fetchLlmsTxt fetch base).2.length ≤ 2 → r.prefixPath = none)) := by
  have hdc : directCandidates base =
      [candidateUrl base.render "/llms.txt",
       candidateUrl base.render "/llms-full.txt"] := rfl
  have hrc : rootCandidates base =
      [candidateUrl (extractRootUrl base) "/llms.txt",
       candidateUrl (extractRootUrl base) "/llms-full.txt"] := rfl
  obtain ⟨hdisj, hnone⟩ := tryFetchLlmsTxt_log fetch base.render
  obtain ⟨rdisj, -⟩ := tryFetchLlmsTxt_log fetch (extractRootUrl base)
  rcases hd : tryFetchLlmsTxt fetch base.render with ⟨rd, ld⟩
  rw [hd] at hdisj hnone
  dsimp only at hdisj hnone
  cases rd with
  | some cu =>
    obtain ⟨c, u⟩ := cu
    have hld : ld = [candidateUrl base.render "/llms.txt"] ∨
        ld = [candidateUrl base.render "/llms.txt",
              candidateUrl base.render "/llms-full.txt"] := hdisj
    have hlen : ld.length ≤ 2 := by rcases hld with h | h <;> simp [h]
    refine ⟨?_, ?_, ?_⟩
    · simp only [fetchLlmsTxt, hd]
      rcases hld with h | h
      · exact Or.inl h
      · exact Or.inr (Or.inl (by rw [h, hdc]))
    · intro hl
      simp only [fetchLlmsTxt, hd] at hl
      omega
    · intro r hr
      simp only [fetchLlmsTxt, hd] at hr ⊢
      obtain rfl : LlmsFetchResult.mk c u none = r := Option.some.injEq _ _ ▸ hr
      exact ⟨fun hl => absurd hl (by omega), fun _ => rfl⟩
  | none =>
    have hld : ld = [candidateUrl base.render "/llms.txt",
        candidateUrl base.render "/llms-full.txt"] := hnone rfl
    by_cases hcond : getUrlPath base ≠ "" ∧ getUrlPath base ≠ "/"
    · rcases hr : tryFetchLlmsTxt fetch (extractRootUrl base) with ⟨rr, lr⟩
      rw [hr] at rdisj
      dsimp only at rdisj
      have hlr : lr = [candidateUrl (extractRootUrl base) "/llms.txt"] ∨
          lr = [candidateUrl (extractRootUrl base) "/llms.txt",
                candidateUrl (extractRootUrl base) "/llms-full.txt"] := rdisj
      cases rr with
      | some cu =>
        obtain ⟨c, u⟩ := cu
        refine ⟨?_, ?_, ?_⟩
        · simp only [fetchLlmsTxt, hd, if_pos hcond, hr]
          rcases hlr with h | h
          · exact Or.inr (Or.inr (Or.inl (by rw [hld, h, hdc])))
          · exact Or.inr (Or.inr (Or.inr (by rw [hld, h, hdc, hrc])))
        · intro _
          exact ⟨rfl, hcond.2⟩
        · intro r hrr
          simp only [fetchLlmsTxt, hd, if_pos hcond, hr] at hrr ⊢
          obtain rfl : LlmsFetchResult.mk c u (some (getUrlPath base)) = r :=
            Option.some.injEq _ _ ▸ hrr
          refine ⟨fun _ => rfl, fun hl => ?_⟩
          exfalso
          rw [hld] at hl
          rcases hlr with h | h <;> rw [h] at hl <;> simp at hl
      | none =>
        refine ⟨?_, ?_, ?_⟩
        · simp only [fetchLlmsTxt, hd, if_pos hcond, hr]
          rcases hlr with h | h
          · exact Or.inr (Or.inr (Or.inl (by rw [hld, h, hdc])))
          · exact Or.inr (Or.inr (Or.inr (by rw [hld, h, hdc, hrc])))
        · intro _
          exact ⟨rfl, hcond.2⟩
        · intro r hrr
          simp only [fetchLlmsTxt, hd, if_pos hcond, hr] at hrr
          exact absurd hrr (by simp)
    · refine ⟨?_, ?_, ?_⟩
      · simp only [fetchLlmsTxt, hd, if_neg hcond]
        exact Or.inr (Or.inl (by rw [hld, hdc]))
      · intro hl
        simp only [fetchLlmsTxt, hd, if_neg hcond] at hl
        rw [hld] at hl
        simp at hl
      · intro r hrr
        simp only [fetchLlmsTxt, hd, if_neg hcond] at hrr
        exact absurd hrr (by simp)

/-- A concrete fetch oracle exercising the root-domain fallback: both
direct candidates miss, the root-domain primary candidate succeeds. -/
def c3fetch : String → Option String :=
  fun u => if u = "https://x.test/llms.txt" then some "# R" else none

def c3base : Url := ⟨"https", "x.test", "/docs"⟩

/-- C3 witness: on `https://x.test/docs` with only
`https://x.test/llms.txt` serving an index, the fetcher reaches the
root-domain phase (three attempts), the direct phase failed, the base
path is non-root, and the result carries `"/docs"` as its prefix. -/
theorem fetchLlmsTxt_attempt_order_witness :
    2 < (fetchLlmsTxt c3fetch c3base).2.length ∧
    ((tryFetchLlmsTxt c3fetch c3base.render).1 = none ∧ getUrlPath c3base ≠ "/") ∧
    ∀ r, (fetchLlmsTxt c3fetch c3base).1 = some r →
      r.prefixPath = some (getUrlPath c3base) := by
  have h := fetchLlmsTxt_attempt_order c3fetch c3base
  exact ⟨by decide, h.2.1 (by decide), fun r hr => (h.2.2 r hr).1 (by decide)⟩

theorem tryFetchLoop_accepted (fetch : String → Option String) (b : String)
    (paths : List String) :
    ∀ r : String × String,
      (tryFetchLoop fetch b paths).1 = some r → jsIncludesChar r.1 '#' = true := by
  induction paths with
  | nil => intro r hr; simp [tryFetchLoop] at hr
  | cons p rest ih =>
    intro r hr
    rcases hf : fetch (candidateUrl b p) with _ | c
    · rcases hrec : tryFetchLoop fetch b rest with ⟨rr, log⟩
      simp only [tryFetchLoop, hf, hrec] at hr
      exact ih r (by rw [hrec]; exact hr)
    · by_cases hh : jsIncludesChar c '#' = true
      · simp only [tryFetchLoop, hf, hh, if_true] at hr
        obtain ⟨rfl, -⟩ : c = r.1 ∧ candidateUrl b p = r.2 := by
          obtain ⟨h1, h2⟩ := Prod.mk.injEq _ _ _ _ ▸ Option.some.injEq _ _ ▸ hr
          exact ⟨h1.symm ▸ rfl, h2.symm ▸ rfl⟩
        exact hh
      · rcases hrec : tryFetchLoop fetch b rest with ⟨rr, log⟩
        simp only [tryFetchLoop, hf, hh, if_false, Bool.false_eq_true, hrec] at hr
        exact ih r (by rw [hrec]; exact hr)

/-- C7: a fetched body is accepted as the index only if it contains the
markdown heading marker character `'#'`; when the primary path returns
a body with no `'#'`, that path is rejected and the next candidate path
is attempted as well. -/
theorem tryFetchLlmsTxt_heading_check (fetch : String → Option String)
    (b body : String) (h1 : fetch (candidateUrl b "/llms.txt") = some body) :
    (∀ r, (tryFetchLlmsTxt fetch b).1 = some r → jsIncludesChar r.1 '#' = true) ∧
    (jsIncludesChar body '#' = false →
      (tryFetchLlmsTxt fetch b).2 =
        [candidateUrl b "/llms.txt", candidateUrl b "/llms-full.txt"]) := by
  constructor
  · exact tryFetchLoop_accepted fetch b LLMS_TXT_PATHS
  · intro hno
    unfold tryFetchLlmsTxt LLMS_TXT_PATHS
    rcases h2 : fetch (candidateUrl b "/llms-full.txt") with _ | c2
    · simp [tryFetchLoop, h1, hno, h2]
    · by_cases hh2 : jsIncludesChar c2 '#' = true <;>
        simp [tryFetchLoop, h1, hno, h2, hh2]

/-- A fetch oracle serving a `'#'`-free body at the primary path. -/
def c7fetch : String → Option String :=
  fun u => if u = candidateUrl "https://h" "/llms.txt" then some "plain text body"
           else none

/-- C7 witness: the `'#'`-free body `"plain text body"` is rejected at
the primary path and the second candidate is attempted. -/
theorem tryFetchLlmsTxt_heading_check_witness :
    c7fetch (candidateUrl "https://h" "/llms.txt") = some "plain text body" ∧
    jsIncludesChar "plain text body" '#' = false ∧
    (tryFetchLlmsTxt c7fetch "https://h").2 =
      [candidateUrl "https://h" "/llms.txt", candidateUrl "https://h" "/llms-full.txt"] :=
  ⟨by decide, by decide,
    (tryFetchLlmsTxt_heading_check c7fetch "https://h" "plain text body"
      (by decide)).2 (by decide)⟩

/-! ## `fetchWithRetry` (`src/lib/fetcher.ts` part of `src/lib/project.ts`)

One call is modelled by an oracle of per-attempt outcomes.  The loop is
instrumented to report the successful status (if any), the number of
attempts performed, and the backoff delays slept, in order. -/

/-- The outcome of one HTTP attempt: a network/timeout error (the
`catch` branch) or a response with a status code. -/
inductive FetchOutcome
  | netErr
  | status (code : Nat)
  deriving DecidableEq, Repr

/-- `Response.ok`: status in the inclusive range 200–299. -/
def statusOk (s : Nat) : Bool := 200 ≤ s && s < 300

/-- The claim's retry condition, modelled from the spec's words:
a network-level failure or a server-error (5xx) status. -/
def specRetryable (o : FetchOutcome) : Bool :=
  match o with
  | .netErr => true
  | .status s => 500 ≤ s && s < 600

/-- The code's actual fall-through condition: a response that is
neither ok nor a 4xx client error (so 5xx, but also 1xx/3xx), or a
network error. -/
def codeRetryable (o : FetchOutcome) : Bool :=
  match o with
  | .netErr => true
  | .status s => !statusOk s && !(decide (400 ≤ s) && decide (s < 500))

/-- `Math.pow(2, attempt) * 100`: the backoff slept before reattempt
`attempt + 1`. -/
def backoffMs (attempt : Nat) : Nat := 2 ^ attempt * 100

/-- The `for (let attempt = 0; attempt < retries; attempt++)` loop of
`fetchWithRetry`.  `fuel = retries - attempt` is the number of loop
iterations left; a network error on the final attempt
(`attempt === retries - 1`, i.e. `fuel = 1`) returns immediately, a 4xx
returns `null` immediately, an ok response returns it, and every other
outcome sleeps the exponential backoff and falls through to the next
iteration. -/
def fetchRetryLoop (oracle : Nat → FetchOutcome) :
    Nat → Nat → Option Nat × Nat × List Nat
  | _, 0 => (none, 0, [])
  | attempt, fuel + 1 =>
    match oracle attempt with
    | .status s =>
      if statusOk s then (some s, 1, [])
      else if 400 ≤ s ∧ s < 500 then (none, 1, [])
      else
        match fetchRetryLoop oracle (attempt + 1) fuel with
        | (r, n, ds) => (r, n + 1, backoffMs attempt :: ds)
    | .netErr =>
      if fuel = 0 then (none, 1, [])
      else
        match fetchRetryLoop oracle (attempt + 1) fuel with
        | (r, n, ds) => (r, n + 1, backoffMs attempt :: ds)

/-- `fetchWithRetry` from the source (with its default
`retries = MAX_RETRIES = 3` left as a parameter). -/
def fetchWithRetry (oracle : Nat → FetchOutcome) (retries : Nat) :
    Option Nat × Nat × List Nat :=
  fetchRetryLoop oracle 0 retries

theorem fetchRetryLoop_retryCond (oracle : Nat → FetchOutcome) :
    ∀ (fuel a i : Nat), i + 2 ≤ (fetchRetryLoop oracle a fuel).2.1 →
      codeRetryable (oracle (a + i)) = true := by
  intro fuel
  induction fuel with
  | zero => intro a i h; simp [fetchRetryLoop] at h
  | succ fuel ih =>
    intro a i h
    rcases ho : oracle a with _ | s
    · by_cases hf : fuel = 0
      · simp [fetchRetryLoop, ho, hf] at h
      · rcases hrec : fetchRetryLoop oracle (a + 1) fuel with ⟨r, n, ds⟩
        simp only [fetchRetryLoop, ho, hf, if_false, hrec] at h
        cases i with
        | zero => simpa [codeRetryable] using congrArg codeRetryable ho
        | succ j =>
          have := ih (a + 1) j (by rw [hrec]; show j + 2 ≤ n; omega)
          simpa [Nat.add_assoc, Nat.add_comm, Nat.add_left_comm] using this
    · by_cases hok : statusOk s = true
      · simp [fetchRetryLoop, ho, hok] at h
      · by_cases h4 : 400 ≤ s ∧ s < 500
        · simp [fetchRetryLoop, ho, hok, h4] at h
        · rcases hrec : fetchRetryLoop oracle (a + 1) fuel with ⟨r, n, ds⟩
          simp only [fetchRetryLoop, ho, hok, Bool.false_eq_true, if_false,
            if_neg h4, hrec] at h
          cases i with
          | zero =>
            rw [Nat.add_zero, ho]
            simp only [codeRetryable]
            rw [Bool.not_eq_true] at hok
            simp [hok, h4]
            omega
          | succ j =>
            have := ih (a + 1) j (by rw [hrec]; show j + 2 ≤ n; omega)
            simpa [Nat.add_assoc, Nat.add_comm, Nat.add_left_comm] using this

theorem fetchRetryLoop_client_error (oracle : Nat → FetchOutcome) :
    ∀ (fuel a i s : Nat), i + 1 ≤ (fetchRetryLoop oracle a fuel).2.1 →
      oracle (a + i) = .status s → 400 ≤ s → s < 500 →
      (fetchRetryLoop oracle a fuel).2.1 = i + 1 ∧
      (fetchRetryLoop oracle a fuel).1 = none := by
  intro fuel
  induction fuel with
  | zero => intro a i s h _ _ _; simp [fetchRetryLoop] at h
  | succ fuel ih =>
    intro a i s h ho h400 h500
    rcases ha : oracle a with _ | s0
    · cases i with
      | zero => rw [Nat.add_zero, ha] at ho; cases ho
      | succ j =>
        by_cases hf : fuel = 0
        · simp [fetchRetryLoop, ha, hf] at h
        · rcases hrec : fetchRetryLoop oracle (a + 1) fuel with ⟨r, n, ds⟩
          simp only [fetchRetryLoop, ha, hf, if_false, hrec] at h ⊢
          have ho' : oracle (a + 1 + j) = .status s := by
            rw [show a + 1 + j = a + (j + 1) by omega, ho]
          have := ih (a + 1) j s (by rw [hrec]; show j + 1 ≤ n; omega) ho' h400 h500
          rw [hrec] at this
          refine ⟨?_, this.2⟩
          have h1 : n = j + 1 := this.1
          omega
    · by_cases hok : statusOk s0 = true
      · simp only [fetchRetryLoop, ha, hok, if_true] at h ⊢
        cases i with
        | succ j => simp at h
        | zero =>
          rw [Nat.add_zero, ha] at ho
          obtain rfl : s0 = s := FetchOutcome.status.injEq _ _ ▸ ho
          exfalso
          simp only [statusOk, Bool.and_eq_true, decide_eq_true_eq] at hok
          omega
      · by_cases h4 : 400 ≤ s0 ∧ s0 < 500
        · simp only [fetchRetryLoop, ha, hok, Bool.false_eq_true, if_false,
            if_pos h4] at h ⊢
          cases i with
          | zero => exact ⟨by trivial, by trivial⟩
          | succ j => simp at h
        · rcases hrec : fetchRetryLoop oracle (a + 1) fuel with ⟨r, n, ds⟩
          simp only [fetchRetryLoop, ha, hok, Bool.false_eq_true, if_false,
            if_neg h4, hrec] at h ⊢
          cases i with
          | zero =>
            rw [Nat.add_zero, ha] at ho
            obtain rfl : s0 = s := FetchOutcome.status.injEq _ _ ▸ ho
            exact absurd ⟨h400, h500⟩ h4
          | succ j =>
            have ho' : oracle (a + 1 + j) = .status s := by
              rw [show a + 1 + j = a + (j + 1) by omega, ho]
            have := ih (a + 1) j s (by rw [hrec]; show j + 1 ≤ n; omega) ho' h400 h500
            rw [hrec] at this
            refine ⟨?_, this.2⟩
            have h1 : n = j + 1 := this.1
            omega

theorem fetchRetryLoop_backoff (oracle : Nat → FetchOutcome) :
    ∀ (fuel a : Nat),
      (fetchRetryLoop oracle a fuel).2.2 =
        (List.range (fetchRetryLoop oracle a fuel).2.2.length).map
          (fun j => backoffMs (a + j)) := by
  intro fuel
  induction fuel with
  | zero => intro a; simp [fetchRetryLoop]
  | succ fuel ih =>
    intro a
    have hstep : ∀ r n ds, fetchRetryLoop oracle (a + 1) fuel = (r, n, ds) →
        (backoffMs a :: ds) =
          (List.range (backoffMs a :: ds).length).map (fun j => backoffMs (a + j)) := by
      intro r n ds hrec
      have h0 := ih (a + 1)
      rw [hrec] at h0
      dsimp only at h0
      have hfun : ((fun j => backoffMs (a + j)) ∘ Nat.succ) =
          (fun j => backoffMs (a + 1 + j)) :=
        funext (fun j => congrArg backoffMs (by omega))
      rw [List.length_cons, List.range_succ_eq_map, List.map_cons, List.map_map]
      simp only [Nat.add_zero, hfun, ← h0]
    rcases ha : oracle a with _ | s0
    · by_cases hf : fuel = 0
      · simp [fetchRetryLoop, ha, hf]
      · rcases hrec : fetchRetryLoop oracle (a + 1) fuel with ⟨r, n, ds⟩
        simp only [fetchRetryLoop, ha, hf, if_false, hrec]
        exact hstep r n ds hrec
    · by_cases hok : statusOk s0 = true
      · simp [fetchRetryLoop, ha, hok]
      · by_cases h4 : 400 ≤ s0 ∧ s0 < 500
        · simp [fetchRetryLoop, ha, hok, h4]
        · rcases hrec : fetchRetryLoop oracle (a + 1) fuel with ⟨r, n, ds⟩
          simp only [fetchRetryLoop, ha, hok, Bool.false_eq_true, if_false,
            if_neg h4, hrec]
          exact hstep r n ds hrec

/-- C8 counterexample: with every attempt answering status 304 (not a
network failure, not a 5xx), `fetchWithRetry` with 3 retries still
performs all 3 attempts — it retried on an outcome that is neither a
network-level failure nor a server error. -/
theorem fetchWithRetry_cex :
    (fetchWithRetry (fun _ => FetchOutcome.status 304) 3).2.1 = 3 ∧
    specRetryable (FetchOutcome.status 304) = false := by
  refine ⟨by decide, by decide⟩

/-- C8 (amended): a reattempt happens only after a network-level
failure or a non-ok status outside the 4xx range (5xx, but also other
non-success codes such as an unfollowed redirect status); any 4xx
status is an immediate, non-retryable miss returning `null`; and the
delays slept before reattempts follow the exponential schedule
`2^attempt * 100`. -/
theorem fetchWithRetry_policy (oracle : Nat → FetchOutcome) (retries : Nat) :
    (∀ i, i + 2 ≤ (fetchWithRetry oracle retries).2.1 →
      codeRetryable (oracle i) = true) ∧
    (∀ i s, i + 1 ≤ (fetchWithRetry oracle retries).2.1 →
      oracle i = .status s → 400 ≤ s → s < 500 →
      (fetchWithRetry oracle retries).2.1 = i + 1 ∧
      (fetchWithRetry oracle retries).1 = none) ∧
    (fetchWithRetry oracle retries).2.2 =
      (List.range (fetchWithRetry oracle retries).2.2.length).map backoffMs := by
  refine ⟨?_, ?_, ?_⟩
  · intro i h
    have := fetchRetryLoop_retryCond oracle retries 0 i h
    simpa using this
  · intro i s h ho h400 h500
    exact fetchRetryLoop_client_error oracle retries 0 i s h (by simpa using ho)
      h400 h500
  · have := fetchRetryLoop_backoff oracle retries 0
    simpa using this

/-- An oracle for the C8 witness: a network error on the first attempt,
a 404 on the second. -/
def c8oracle : Nat → FetchOutcome :=
  fun i => if i = 0 then FetchOutcome.netErr else FetchOutcome.status 404

/-- C8 witness: with `c8oracle` and 3 retries, the retry after attempt 0
was caused by a retryable outcome, the 404 at attempt 1 ends the call
with `null` after exactly 2 attempts, and the slept delays follow the
exponential schedule. -/
theorem fetchWithRetry_policy_witness :
    codeRetryable (c8oracle 0) = true ∧
    ((fetchWithRetry c8oracle 3).2.1 = 1 + 1 ∧
     (fetchWithRetry c8oracle 3).1 = none) ∧
    (fetchWithRetry c8oracle 3).2.2 =
      (List.range (fetchWithRetry c8oracle 3).2.2.length).map backoffMs := by
  have h := fetchWithRetry_policy c8oracle 3
  exact ⟨h.1 0 (by decide),
    h.2.1 1 404 (by decide) (by decide) (by decide) (by decide), h.2.2⟩

/-! ## Origin resolver (`src/lib/npm-resolver.ts`)

Registry metadata is modelled by its two relevant fields; the WHATWG
`new URL(url)` validity check is modelled by `urlParseOk` (a nonempty,
letter-initial scheme followed by `':'`). -/

structure NpmPackageMeta where
  homepage : Option String
  repositoryUrl : Option String
  deriving DecidableEq, Repr

/-- JS truthiness of an optional string field (`undefined`/missing and
`""` are falsy). -/
def truthyOpt (s : Option String) : Bool :=
  match s with
  | none => false
  | some s => s != ""

/-- `normalizeUrl` from the source: trim, upgrade a leading `http://`
to `https://` (the source's single-occurrence `replace`, which fires at
position 0 because of the `startsWith` guard), and strip one trailing
slash. -/
def normalizeUrlL (l : List Char) : List Char :=
  let t := trimL l
  let t2 :=
    if "http://".data.isPrefixOf t then
      replaceFirstL t "http://".data "https://".data
    else t
  if t2.getLast? = some '/' then t2.dropLast else t2

def normalizeUrl (s : String) : String := ⟨normalizeUrlL s.data⟩

/-- Models acceptance by `new URL(url)`: a nonempty scheme of scheme
characters starting with a letter, followed by `':'`. -/
def urlParseOk (l : List Char) : Bool :=
  match splitFirst ':' l with
  | some (scheme, _) =>
    (match scheme.head? with
     | some c => c.isAlpha
     | none => false) &&
    scheme.all (fun c => c.isAlpha || c.isDigit || c = '+' || c = '-' || c = '.')
  | none => false

/-- The final step of `repoUrlToWebsite`:
`try { new URL(url); return normalizeUrl(url) } catch { return null }`. -/
def validateAndNormalize (u : List Char) : Option (List Char) :=
  if urlParseOk u then some (normalizeUrlL u) else none

/-- `repoUrlToWebsite` from the source: strip `git+`, rewrite `git://`
to `https://`, rewrite SSH-style `git@host:path` (the regex
`git@([^:]+):(.+)`, anchored here by the `startsWith('git@')` guard) to
`https://host/path`, strip a `.git` suffix, then validate with
`new URL` and normalize. -/
def repoUrlToWebsiteL (repoUrl : List Char) : Option (List Char) :=
  let u0 := trimL repoUrl
  let u1 := if "git+".data.isPrefixOf u0 then u0.drop 4 else u0
  let u2 :=
    if "git://".data.isPrefixOf u1 then
      replaceFirstL u1 "git://".data "https://".data
    else u1
  let u3 :=
    if "git@".data.isPrefixOf u2 then
      match splitFirst ':' (u2.drop 4) with
      | some (hostPart, rest) =>
        if hostPart ≠ [] ∧ rest ≠ [] then
          "https://".data ++ hostPart ++ '/' :: rest
        else u2
      | none => u2
    else u2
  let u4 := if ".git".data.isSuffixOf u3 then u3.take (u3.length - 4) else u3
  validateAndNormalize u4

def repoUrlToWebsite (repoUrl : String) : Option String :=
  (repoUrlToWebsiteL repoUrl.data).map (⟨·⟩)

/-- `extractWebsiteUrl` from the source: prefer a truthy `homepage`
(normalized, not validated), fall back to a truthy `repository.url`
(validated), else `null`. -/
def extractWebsiteUrl (meta : NpmPackageMeta) : Option String :=
  if truthyOpt meta.homepage then some (normalizeUrl (meta.homepage.getD ""))
  else if truthyOpt meta.repositoryUrl then
    repoUrlToWebsite (meta.repositoryUrl.getD "")
  else none

theorem get?_of_isPrefixOf {p l : List Char} (h : p.isPrefixOf l = true)
    (i : Nat) (hi : i < p.length) : l.get? i = p.get? i := by
  induction p generalizing l i with
  | nil => simp at hi
  | cons a as ih =>
    cases l with
    | nil => simp [List.isPrefixOf] at h
    | cons b bs =>
      simp only [List.isPrefixOf, Bool.and_eq_true, beq_iff_eq] at h
      obtain ⟨rfl, h2⟩ := h
      cases i with
      | zero => rfl
      | succ j => exact ih h2 j (by simpa using hi)

theorem isPrefixOf_append_right {p xs : List Char} (ys : List Char)
    (h : p.isPrefixOf xs = true) : p.isPrefixOf (xs ++ ys) = true := by
  induction p generalizing xs with
  | nil => simp [List.isPrefixOf]
  | cons a as ih =>
    cases xs with
    | nil => simp [List.isPrefixOf] at h
    | cons b bs =>
      simp only [List.isPrefixOf, Bool.and_eq_true, beq_iff_eq] at h ⊢
      exact ⟨h.1, ih h.2⟩

theorem splitOnceL_of_isPrefixOf {pat l : List Char} (hne : pat ≠ [])
    (h : pat.isPrefixOf l = true) :
    splitOnceL pat l = some ([], l.drop pat.length) := by
  cases l with
  | nil =>
    cases pat with
    | nil => exact absurd rfl hne
    | cons c cs => simp [List.isPrefixOf] at h
  | cons x xs => simp [splitOnceL, h]

theorem no_http_of_get4 {m : List Char} (h : m.get? 4 ≠ some ':') :
    "http://".data.isPrefixOf m = false := by
  by_contra hcon
  rw [Bool.not_eq_false] at hcon
  have h4 := get?_of_isPrefixOf hcon 4 (by decide)
  exact h (by rw [h4]; rfl)

theorem get4_https (rest : List Char) :
    ("https://".data ++ rest).get? 4 = some 's' := by
  rw [List.get?_append (by decide)]
  decide

theorem get4_https_dropLast (rest : List Char) :
    (("https://".data ++ rest).dropLast).get? 4 = some 's' := by
  cases rest with
  | nil => rfl
  | cons r rs =>
    rw [List.dropLast_append_cons, List.get?_append (by decide)]
    decide

theorem normalizeUrlL_no_http (l : List Char) :
    "http://".data.isPrefixOf (normalizeUrlL l) = false := by
  simp only [normalizeUrlL]
  by_cases hp : "http://".data.isPrefixOf (trimL l) = true
  · have hne : ("http://".data : List Char) ≠ [] := by decide
    simp only [hp, if_true, replaceFirstL, splitOnceL_of_isPrefixOf hne hp,
      List.nil_append]
    split
    · exact no_http_of_get4 (by rw [get4_https_dropLast]; decide)
    · exact no_http_of_get4 (by rw [get4_https]; decide)
  · rw [Bool.not_eq_true] at hp
    simp only [hp, Bool.false_eq_true, if_false]
    split
    · next hsl =>
      by_contra hcon
      rw [Bool.not_eq_false] at hcon
      have hn : trimL l ≠ [] := by
        intro h0; rw [h0] at hsl; cases hsl
      have h2 := isPrefixOf_append_right [(trimL l).getLast hn] hcon
      rw [List.dropLast_append_getLast hn] at h2
      rw [h2] at hp
      cases hp
    · exact hp

theorem validateAndNormalize_spec (u : List Char) :
    validateAndNormalize u = none ∨
    ∃ v, urlParseOk v = true ∧ validateAndNormalize u = some (normalizeUrlL v) := by
  by_cases hok : urlParseOk u = true
  · exact Or.inr ⟨u, hok, by rw [validateAndNormalize, if_pos hok]⟩
  · rw [Bool.not_eq_true] at hok
    refine Or.inl ?_
    rw [validateAndNormalize, if_neg ?_]
    simp [hok]

theorem repoUrlToWebsiteL_spec (l : List Char) :
    repoUrlToWebsiteL l = none ∨
    ∃ v, urlParseOk v = true ∧ repoUrlToWebsiteL l = some (normalizeUrlL v) :=
  validateAndNormalize_spec _

/-- C6 counterexample: a malformed homepage value is passed through
unvalidated — the resolver returns `some "hello"`, which is neither a
well-formed URL nor an `https://` URL, contradicting the claim that it
only returns normalized well-formed `https://` URLs or `null`. -/
theorem extractWebsiteUrl_cex :
    extractWebsiteUrl ⟨some "hello", none⟩ = some "hello" ∧
    urlParseOk "hello".data = false ∧
    "https://".data.isPrefixOf "hello".data = false := by
  refine ⟨by decide, by decide, by decide⟩

/-- C6 (amended): the resolver prefers a truthy `homepage` over
`repository.url`; every returned URL went through `normalizeUrl`, so a
leading `http://` has been upgraded and no result starts with
`http://`; with no usable homepage the result is `null` or a
repository-derived URL that passed `new URL` validation before
normalization.  (A homepage value itself is *not* validated.) -/
theorem extractWebsiteUrl_policy (meta : NpmPackageMeta) :
    (∀ h, meta.homepage = some h → h ≠ "" →
      extractWebsiteUrl meta = some (normalizeUrl h)) ∧
    (∀ u, extractWebsiteUrl meta = some u →
      "http://".data.isPrefixOf u.data = false) ∧
    (truthyOpt meta.homepage = false →
      extractWebsiteUrl meta = none ∨
      ∃ v, urlParseOk v = true ∧
        extractWebsiteUrl meta = some ⟨normalizeUrlL v⟩) := by
  refine ⟨?_, ?_, ?_⟩
  · intro h hh hne
    have ht : truthyOpt (some h) = true := by simp [truthyOpt, hne]
    simp [extractWebsiteUrl, hh, ht]
  · intro u hu
    simp only [extractWebsiteUrl] at hu
    split at hu
    · obtain rfl : normalizeUrl (meta.homepage.getD "") = u :=
        Option.some.injEq _ _ ▸ hu
      exact normalizeUrlL_no_http _
    · split at hu
      · rcases repoUrlToWebsiteL_spec (meta.repositoryUrl.getD "").data with
          hnone | ⟨v, hok, hv⟩
        · rw [repoUrlToWebsite, hnone] at hu; cases hu
        · rw [repoUrlToWebsite, hv] at hu
          simp only [Option.map_some'] at hu
          obtain rfl : (⟨normalizeUrlL v⟩ : String) = u :=
            Option.some.injEq _ _ ▸ hu
          exact normalizeUrlL_no_http v
      · cases hu
  · intro hf
    simp only [extractWebsiteUrl, hf, Bool.false_eq_true, if_false]
    split
    · rcases repoUrlToWebsiteL_spec (meta.repositoryUrl.getD "").data with
        hnone | ⟨v, hok, hv⟩
      · exact Or.inl (by rw [repoUrlToWebsite, hnone]; rfl)
      · exact Or.inr ⟨v, hok, by rw [repoUrlToWebsite, hv]; rfl⟩
    · exact Or.inl rfl

/-- C6 witness: the homepage `"http://ex.com/"` is preferred, upgraded
to `https`, and a repository-only metadata value yields `null` or a
validated URL. -/
theorem extractWebsiteUrl_policy_witness :
    extractWebsiteUrl ⟨some "http://ex.com/", none⟩ =
      some (normalizeUrl "http://ex.com/") ∧
    "http://".data.isPrefixOf (normalizeUrl "http://ex.com/").data = false ∧
    (extractWebsiteUrl ⟨none, some "git+https://github.com/u/r.git"⟩ = none ∨
     ∃ v, urlParseOk v = true ∧
       extractWebsiteUrl ⟨none, some "git+https://github.com/u/r.git"⟩ =
         some ⟨normalizeUrlL v⟩) :=
  ⟨(extractWebsiteUrl_policy ⟨some "http://ex.com/", none⟩).1
     "http://ex.com/" rfl (by decide),
   (extractWebsiteUrl_policy ⟨some "http://ex.com/", none⟩).2.1 _
     ((extractWebsiteUrl_policy ⟨some "http://ex.com/", none⟩).1
       "http://ex.com/" rfl (by decide)),
   (extractWebsiteUrl_policy ⟨none, some "git+https://github.com/u/r.git"⟩).2.2
     (by decide)⟩

/-! ## Bounded async pool (`src/lib/async-pool.ts`) and the document
tally of `fetchPackageDocs`

`asyncPool` starts `fn(item)` for each item in order, adding the task
to the `executing` set; whenever `executing.size >= concurrency` it
awaits `Promise.race(executing)` before admitting the next item, and
completed tasks delete themselves from the set.  The in-flight
population over time is modelled by a step function driven by a
scheduler oracle giving, for each such await, how many in-flight tasks
have completed by the time the race settles (clamped to the interval
`[1, inflight]`: a race settles only once at least one task has
finished). -/

/-- One loop iteration per remaining item `m`: record the in-flight
size right after the admission, then, if the size has reached `n`,
remove the completions the oracle delivers for await number `t`. -/
def poolTrace (n : Nat) (oracle : Nat → Nat) : Nat → Nat → Nat → List Nat
  | 0, _, _ => []
  | m + 1, inflight, t =>
    let admitted := inflight + 1
    let after :=
      if n ≤ admitted then admitted - Nat.max 1 (Nat.min (oracle t) admitted)
      else admitted
    admitted :: poolTrace n oracle m after (t + 1)

/-- The in-flight sizes observed while `asyncPool n` runs over `m`
items (the final `Promise.all` drain only decreases the population). -/
def asyncPoolTrace (n m : Nat) (oracle : Nat → Nat) : List Nat :=
  poolTrace n oracle m 0 0

/-- The per-item bookkeeping of the `fetchPackageDocs` document loop:
a fetched content bumps `completed`, a `null` bumps `errors`. -/
def tallyStep (acc : Nat × Nat) (r : Option String) : Nat × Nat :=
  match r with
  | some _ => (acc.1 + 1, acc.2)
  | none => (acc.1, acc.2 + 1)

/-- The final `(completed, errors)` pair of `fetchPackageDocs` given
the per-document fetch outcomes. -/
def fetchDocsTally (results : List (Option String)) : Nat × Nat :=
  results.foldl tallyStep (0, 0)

theorem poolTrace_bounded (n : Nat) (oracle : Nat → Nat) :
    ∀ (m inflight t : Nat), inflight + 1 ≤ n →
      ∀ s ∈ poolTrace n oracle m inflight t, s ≤ n := by
  intro m
  induction m with
  | zero => intro inflight t _ s hs; simp [poolTrace] at hs
  | succ m ih =>
    intro inflight t hinf s hs
    simp only [poolTrace, List.mem_cons] at hs
    rcases hs with rfl | hs
    · exact hinf
    · refine ih _ (t + 1) ?_ s hs
      by_cases hcap : n ≤ inflight + 1
      · have h1 : 1 ≤ Nat.max 1 (Nat.min (oracle t) (inflight + 1)) :=
          Nat.le_max_left _ _
        simp only [if_pos hcap]
        omega
      · simp only [if_neg hcap]
        omega

theorem foldl_tallyStep (results : List (Option String)) :
    ∀ acc : Nat × Nat,
      (results.foldl tallyStep acc).1 + (results.foldl tallyStep acc).2 =
        acc.1 + acc.2 + results.length := by
  induction results with
  | nil => intro acc; simp
  | cons r rest ih =>
    intro acc
    rw [List.foldl_cons, ih]
    cases r <;> simp [tallyStep] <;> omega

/-- C2: with concurrency limit `n ≥ 1`, the pool never has more than
`n` fetches in flight at any instant, and the final tally of
`fetchPackageDocs` accounts for all `m` items:
completed + errors = m. -/
theorem asyncPool_bounded_and_tally (n m : Nat) (oracle : Nat → Nat)
    (results : List (Option String)) (hn : 1 ≤ n) (hm : results.length = m) :
    (∀ s ∈ asyncPoolTrace n m oracle, s ≤ n) ∧
    (fetchDocsTally results).1 + (fetchDocsTally results).2 = m := by
  constructor
  · exact poolTrace_bounded n oracle m 0 0 (by omega)
  · have h := foldl_tallyStep results (0, 0)
    simpa [fetchDocsTally, hm] using h

/-- C2 witness: limit 2, three documents, one of which fails. -/
theorem asyncPool_bounded_and_tally_witness :
    (1 ≤ 2) ∧ ([some "a", none, some "b"] : List (Option String)).length = 3 ∧
    (∀ s ∈ asyncPoolTrace 2 3 (fun _ => 1), s ≤ 2) ∧
    (fetchDocsTally [some "a", none, some "b"]).1 +
      (fetchDocsTally [some "a", none, some "b"]).2 = 3 := by
  have h := asyncPool_bounded_and_tally 2 3 (fun _ => 1)
    [some "a", none, some "b"] (by decide) (by decide)
  exact ⟨by decide, by decide, h.1, h.2⟩
